import Mathlib

set_option maxHeartbeats 1000000

/-!
Verification of the Mimic Chess rule engine.

The engine is shallowly embedded from the networked variant of the game
(`src/unnamed/part_000`): coordinate conversion (`toCoords`/`toSquare`,
lines 79-80), move generation (`calculateValidMoves`, lines 122-188),
move application (`handleMove`, lines 190-234) and the click-path guards
(`onSquareClick`, lines 291-305).  Squares are modelled as the pair of
characters of the source's square strings, boards as total maps from
squares to optional pieces, and the source's `while` ray-walk as a
fuel-bounded recursion (fuel 8 strictly dominates the number of probes
the source loop can make from any origin the engine ever passes it).
-/

namespace MimicChess

/-- Piece colors, the `'w'` / `'b'` tags of the source. -/
inductive Color
  | w
  | b
  deriving DecidableEq, Repr

/-- Piece kinds, the one-letter chess.js `type` tags of the source. -/
inductive Kind
  | p
  | n
  | b
  | r
  | q
  | k
  deriving DecidableEq, Repr

/-- Color swap, `color === 'w' ? 'b' : 'w'` in the source. -/
def opponent : Color → Color
  | .w => .b
  | .b => .w

/-- A piece: chess.js `{ type, color }`. -/
structure Piece where
  kind : Kind
  color : Color
  deriving DecidableEq, Repr

/-- A square string `"e4"` is modelled by its two characters (file, rank). -/
abbrev Square := Char × Char

/-- File characters, `COLS` of the source (part_000 line 77). -/
def COLS : List Char := ['a', 'b', 'c', 'd', 'e', 'f', 'g', 'h']

/-- Rank characters, `ROWS` of the source (part_000 line 78). -/
def ROWS : List Char := ['1', '2', '3', '4', '5', '6', '7', '8']

/-- JavaScript `Array.prototype.indexOf`: first index of `c`, `-1` if absent. -/
def jsIndexOf (l : List Char) (c : Char) : Int :=
  match l.findIdx? (fun a => a == c) with
  | some i => (i : Int)
  | none => -1

/-- Square string to coordinates (part_000 line 79). -/
def toCoords (sq : Square) : Int × Int :=
  (jsIndexOf COLS sq.1, jsIndexOf ROWS sq.2)

/-- Coordinates to square string, `null` off the board (part_000 line 80). -/
def toSquare (x y : Int) : Option Square :=
  if 0 ≤ x ∧ x < 8 ∧ 0 ≤ y ∧ y < 8 then
    some (COLS.getD x.toNat 'a', ROWS.getD y.toNat '1')
  else none

/-- A board position: what `getPiece(fen, ·)` answers for each square. -/
def Board := Square → Option Piece

/-- The aggregate game state held by the component: `fen` (as a board),
`turn`, `moveHistory` (per color), `unmoved` (squares object) and
`winner` (part_000 lines 92-96). -/
structure GameState where
  board : Board
  turnOf : Color
  historyW : List Kind
  historyB : List Kind
  unmoved : Square → Bool
  winner : Option Color

/-- The per-color move history object `moveHistory[color]`. -/
def historyOf (st : GameState) : Color → List Kind
  | .w => st.historyW
  | .b => st.historyB

/-- The fixed direction/offset tables `vecs` (part_000 lines 136-142). -/
def dirVecs : Kind → List (Int × Int)
  | .n => [(1, 2), (2, 1), (2, -1), (1, -2), (-1, -2), (-2, -1), (-2, 1), (-1, 2)]
  | .b => [(1, 1), (1, -1), (-1, -1), (-1, 1)]
  | .r => [(1, 0), (-1, 0), (0, 1), (0, -1)]
  | .q => [(1, 0), (-1, 0), (0, 1), (0, -1), (1, 1), (1, -1), (-1, -1), (-1, 1)]
  | .k => [(1, 0), (-1, 0), (0, 1), (0, -1), (1, 1), (1, -1), (-1, -1), (-1, 1)]
  | .p => []

/-- The sliding ray walk `while(tryAdd(tx, ty)) { tx += dx; ty += dy }`
(part_000 lines 161-163): each probe adds an empty square and continues,
adds an opponent square and stops, or stops on a friendly or off-board
square.  The source loop makes at most 8 probes from any origin with
coordinates ≥ -1, so fuel 8 reproduces it exactly. -/
def slide (bd : Board) (opp : Color) (x y dx dy : Int) : Nat → List Square
  | 0 => []
  | Nat.succ fuel =>
    match toSquare (x + dx) (y + dy) with
    | none => []
    | some ts =>
      match bd ts with
      | none => ts :: slide bd opp (x + dx) (y + dy) dx dy fuel
      | some tp => if tp.color = opp then [ts] else []

/-- A single `tryAdd` probe for the jumping pieces (part_000 lines 144-156,
used at line 167): the destination, if it is on the board and empty or
opponent-occupied. -/
def stepTarget (bd : Board) (opp : Color) (tx ty : Int) : Option Square :=
  match toSquare tx ty with
  | none => none
  | some ts =>
    match bd ts with
    | none => some ts
    | some tp => if tp.color = opp then some ts else none

/-- The pawn forward direction `color === 'w' ? 1 : -1` (part_000 line 170). -/
def pawnDir (color : Color) : Int := if color = .w then 1 else -1

/-- One diagonal-capture probe (part_000 lines 179-184): the target, if it
is on the board and holds an opponent piece. -/
def diagTarget (bd : Board) (opp : Color) (tx ty : Int) : Option Square :=
  match toSquare tx ty with
  | none => none
  | some ts =>
    match bd ts with
    | none => none
    | some tp => if tp.color = opp then some ts else none

/-- Pawn-logic generation (part_000 lines 169-186): forward one onto an
empty square; nested inside it, forward two when the origin is unmoved and
the far square is empty; plus the two diagonal captures. -/
def pawnMoves (bd : Board) (opp : Color) (unmoved : Square → Bool) (sq : Square)
    (cx cy : Int) (color : Color) : List Square :=
  let dir : Int := pawnDir color
  let fwd : List Square :=
    match toSquare cx (cy + dir) with
    | none => []
    | some f1 =>
      if bd f1 = none then
        f1 :: (match toSquare cx (cy + dir * 2) with
               | none => []
               | some f2 => if unmoved sq ∧ bd f2 = none then [f2] else [])
      else []
  let diag : List Square :=
    [((1 : Int), dir), (-1, dir)].filterMap (fun d => diagTarget bd opp (cx + d.1) (cy + d.2))
  fwd ++ diag

/-- Movement geometry dispatch on the effective kind (part_000 lines
158-186): sliding for bishop/rook/queen, one probe per offset for
knight/king, pawn logic for pawn. -/
def movesForKind (bd : Board) (opp : Color) (unmoved : Square → Bool) (sq : Square)
    (cx cy : Int) (color : Color) : Kind → List Square
  | .b => (dirVecs .b).flatMap (fun d => slide bd opp cx cy d.1 d.2 8)
  | .r => (dirVecs .r).flatMap (fun d => slide bd opp cx cy d.1 d.2 8)
  | .q => (dirVecs .q).flatMap (fun d => slide bd opp cx cy d.1 d.2 8)
  | .n => (dirVecs .n).filterMap (fun d => stepTarget bd opp (cx + d.1) (cy + d.2))
  | .k => (dirVecs .k).filterMap (fun d => stepTarget bd opp (cx + d.1) (cy + d.2))
  | .p => pawnMoves bd opp unmoved sq cx cy color

/-- The source's effective logic type (part_000 lines 130-134):
`piece.type`, overridden by the last entry of the mover's history when
that history is non-empty. -/
def effectiveLogic (st : GameState) (piece : Piece) : Kind :=
  match (historyOf st st.turnOf).getLast? with
  | some t => t
  | none => piece.kind

/-- Move generation, `calculateValidMoves` (part_000 lines 122-188):
empty when the origin is empty or holds a piece of the wrong color,
otherwise the geometry of the effective logic kind with friend/foe
taken from the turn's color. -/
def calculateValidMoves (st : GameState) (sq : Square) : List Square :=
  match st.board sq with
  | none => []
  | some piece =>
    if piece.color ≠ st.turnOf then []
    else
      let c := toCoords sq
      movesForKind st.board (opponent st.turnOf) st.unmoved sq c.1 c.2 st.turnOf
        (effectiveLogic st piece)

/-- The moves the program offers for a clicked square: `onSquareClick`
(part_000 lines 291-305) refuses every interaction once a winner is set
and otherwise sets the valid-move list to `calculateValidMoves`.  This is
the code realizing the spec's `generateMoves(state, origin)`. -/
def generateMoves (st : GameState) (sq : Square) : List Square :=
  if st.winner.isSome then [] else calculateValidMoves st sq

/-- Move application, `handleMove` (part_000 lines 190-234): guard on a
present piece of the turn's color; remove from origin, place at the
destination (a queen when a pawn lands on rank `'1'` or `'8'`, the
source's promotion line 200); flip the turn; append the recorded kind
(reset to pawn on promotion, lines 209-210) to the mover's history;
delete the origin from the unmoved set; set the winner to the mover
exactly when the old destination held a king (lines 219-224). -/
def applyMove (st : GameState) (f t : Square) : GameState :=
  match st.board f with
  | none => st
  | some piece =>
    if piece.color ≠ st.turnOf then st
    else
      let ty : Kind := if piece.kind = .p ∧ (t.2 = '1' ∨ t.2 = '8') then .q else piece.kind
      let newBoard : Board := fun s =>
        if s = t then some ⟨ty, piece.color⟩ else if s = f then none else st.board s
      let recorded : Kind :=
        if piece.kind = .p ∧ (t.2 = '8' ∨ t.2 = '1') then .p else piece.kind
      let newW : Option Color :=
        match st.board t with
        | some target => if target.kind = .k then some st.turnOf else none
        | none => none
      { board := newBoard
        turnOf := opponent piece.color
        historyW := if st.turnOf = .w then st.historyW ++ [recorded] else st.historyW
        historyB := if st.turnOf = .b then st.historyB ++ [recorded] else st.historyB
        unmoved := fun s => if s = f then false else st.unmoved s
        winner := newW }

/-- The click-driven move path (part_000 lines 291-296): nothing happens
once a winner is set; otherwise a move executes only when the clicked
destination is among the offered moves of the selected origin. -/
def attemptMove (st : GameState) (f t : Square) : GameState :=
  if st.winner.isSome then st
  else if t ∈ generateMoves st f then applyMove st f t else st

/-- Modelled from the spec (section 4.1 step 1): the effective movement
kind is the piece's own kind when the mover's color has an empty history
and the last entry of that history otherwise. -/
def specEffectiveKind (st : GameState) (piece : Piece) : Kind :=
  if h : historyOf st piece.color = [] then piece.kind
  else (historyOf st piece.color).getLast h

/-! ### Coordinate conversion facts -/

theorem toSquare_some_iff {x y : Int} {s : Square} :
    toSquare x y = some s ↔
      (0 ≤ x ∧ x < 8 ∧ 0 ≤ y ∧ y < 8) ∧
        s = (COLS.getD x.toNat 'a', ROWS.getD y.toNat '1') := by
  unfold toSquare
  split
  · simp only [Option.some.injEq]
    tauto
  · simp only [reduceCtorEq, false_iff]
    tauto

theorem toSquare_bounds {x y : Int} {s : Square} (h : toSquare x y = some s) :
    0 ≤ x ∧ x < 8 ∧ 0 ≤ y ∧ y < 8 :=
  (toSquare_some_iff.mp h).1

theorem cols_getD_inj : ∀ a b : Fin 8, COLS.getD a.val 'a' = COLS.getD b.val 'a' → a = b := by
  decide

theorem rows_getD_inj : ∀ a b : Fin 8, ROWS.getD a.val '1' = ROWS.getD b.val '1' → a = b := by
  decide

theorem cols_getD_mem : ∀ a : Fin 8, COLS.getD a.val 'a' ∈ COLS := by decide

theorem rows_getD_mem : ∀ a : Fin 8, ROWS.getD a.val '1' ∈ ROWS := by decide

theorem cols_jsIndexOf_getD : ∀ a : Fin 8, jsIndexOf COLS (COLS.getD a.val 'a') = (a.val : Int) := by
  decide

theorem rows_jsIndexOf_getD : ∀ a : Fin 8, jsIndexOf ROWS (ROWS.getD a.val '1') = (a.val : Int) := by
  decide

theorem toSquare_inj {x y x' y' : Int} {s : Square}
    (h : toSquare x y = some s) (h' : toSquare x' y' = some s) : x = x' ∧ y = y' := by
  obtain ⟨⟨hx0, hx8, hy0, hy8⟩, hs⟩ := toSquare_some_iff.mp h
  obtain ⟨⟨hx0', hx8', hy0', hy8'⟩, hs'⟩ := toSquare_some_iff.mp h'
  rw [hs] at hs'
  have hxn : x.toNat < 8 := by omega
  have hxn' : x'.toNat < 8 := by omega
  have hyn : y.toNat < 8 := by omega
  have hyn' : y'.toNat < 8 := by omega
  have hc : COLS.getD x.toNat 'a' = COLS.getD x'.toNat 'a' := congrArg Prod.fst hs'
  have hr : ROWS.getD y.toNat '1' = ROWS.getD y'.toNat '1' := congrArg Prod.snd hs'
  have h1 := cols_getD_inj ⟨x.toNat, hxn⟩ ⟨x'.toNat, hxn'⟩ hc
  have h2 := rows_getD_inj ⟨y.toNat, hyn⟩ ⟨y'.toNat, hyn'⟩ hr
  have h1' : x.toNat = x'.toNat := congrArg Fin.val h1
  have h2' : y.toNat = y'.toNat := congrArg Fin.val h2
  omega

theorem toCoords_toSquare {x y : Int} {s : Square} (h : toSquare x y = some s) :
    toCoords s = (x, y) := by
  obtain ⟨⟨hx0, hx8, hy0, hy8⟩, hs⟩ := toSquare_some_iff.mp h
  have hxn : x.toNat < 8 := by omega
  have hyn : y.toNat < 8 := by omega
  subst hs
  unfold toCoords
  have h1 := cols_jsIndexOf_getD ⟨x.toNat, hxn⟩
  have h2 := rows_jsIndexOf_getD ⟨y.toNat, hyn⟩
  simp only at h1 h2
  rw [h1, h2]
  have : (x.toNat : Int) = x := by omega
  have h2 : (y.toNat : Int) = y := by omega
  rw [this, h2]

theorem toSquare_mem_of_some {x y : Int} {s : Square} (h : toSquare x y = some s) :
    s.1 ∈ COLS ∧ s.2 ∈ ROWS := by
  obtain ⟨⟨hx0, hx8, hy0, hy8⟩, hs⟩ := toSquare_some_iff.mp h
  have hxn : x.toNat < 8 := by omega
  have hyn : y.toNat < 8 := by omega
  subst hs
  exact ⟨cols_getD_mem ⟨x.toNat, hxn⟩, rows_getD_mem ⟨y.toNat, hyn⟩⟩

theorem toSquare_isSome_of_bounds {x y : Int}
    (hx0 : 0 ≤ x) (hx8 : x < 8) (hy0 : 0 ≤ y) (hy8 : y < 8) :
    ∃ s, toSquare x y = some s := by
  refine ⟨_, toSquare_some_iff.mpr ⟨⟨hx0, hx8, hy0, hy8⟩, rfl⟩⟩

/-! ### Characterization of the sliding ray walk -/

theorem mem_slide_iff {bd : Board} {opp : Color} {dx dy : Int} :
    ∀ (fuel : Nat) (x y : Int) (s : Square),
      s ∈ slide bd opp x y dx dy fuel ↔
        ∃ k : Int, 1 ≤ k ∧ k ≤ (fuel : Int) ∧
          toSquare (x + k * dx) (y + k * dy) = some s ∧
          (∀ j : Int, 1 ≤ j → j < k →
            ∃ sj, toSquare (x + j * dx) (y + j * dy) = some sj ∧ bd sj = none) ∧
          (bd s = none ∨ ∃ tp, bd s = some tp ∧ tp.color = opp) := by
  intro fuel
  induction fuel with
  | zero =>
    intro x y s
    constructor
    · intro h
      simp [slide] at h
    · rintro ⟨k, hk1, hk2, -⟩
      exfalso
      omega
  | succ fuel ih =>
    intro x y s
    cases hts : toSquare (x + dx) (y + dy) with
    | none =>
      constructor
      · intro h
        simp only [slide, hts] at h
        simp at h
      · rintro ⟨k, hk1, hk2, hend, hint, -⟩
        exfalso
        rcases eq_or_lt_of_le hk1 with hk | hk
        · rw [← hk, one_mul, one_mul, hts] at hend
          exact absurd hend (by simp)
        · obtain ⟨s1, hs1, -⟩ := hint 1 le_rfl hk
          rw [one_mul, one_mul, hts] at hs1
          exact absurd hs1 (by simp)
    | some ts =>
      cases hbd : bd ts with
      | none =>
        constructor
        · intro h
          simp only [slide, hts, hbd] at h
          rcases List.mem_cons.mp h with h | h
          · subst h
            exact ⟨1, le_rfl, by omega, by rw [one_mul, one_mul]; exact hts,
              fun j hj1 hj2 => absurd hj2 (by omega), Or.inl hbd⟩
          · obtain ⟨k', hk1', hk2', hend', hint', hok'⟩ := (ih (x + dx) (y + dy) s).mp h
            refine ⟨k' + 1, by omega, by omega, ?_, ?_, hok'⟩
            · rw [show x + (k' + 1) * dx = x + dx + k' * dx by ring,
                show y + (k' + 1) * dy = y + dy + k' * dy by ring]
              exact hend'
            · intro j hj1 hj2
              rcases eq_or_lt_of_le hj1 with hj | hj
              · refine ⟨ts, ?_, hbd⟩
                rw [← hj, one_mul, one_mul]
                exact hts
              · obtain ⟨sj, hsj, hsj2⟩ := hint' (j - 1) (by omega) (by omega)
                refine ⟨sj, ?_, hsj2⟩
                rw [show x + j * dx = x + dx + (j - 1) * dx by ring,
                  show y + j * dy = y + dy + (j - 1) * dy by ring]
                exact hsj
        · rintro ⟨k, hk1, hk2, hend, hint, hok⟩
          simp only [slide, hts, hbd]
          rcases eq_or_lt_of_le hk1 with hk | hk
          · rw [← hk, one_mul, one_mul, hts] at hend
            have hs : ts = s := Option.some.inj hend
            subst hs
            exact List.mem_cons_self _ _
          · apply List.mem_cons_of_mem
            apply (ih (x + dx) (y + dy) s).mpr
            refine ⟨k - 1, by omega, by omega, ?_, ?_, hok⟩
            · rw [show x + dx + (k - 1) * dx = x + k * dx by ring,
                show y + dy + (k - 1) * dy = y + k * dy by ring]
              exact hend
            · intro j hj1 hj2
              obtain ⟨sj, hsj, hsj2⟩ := hint (j + 1) (by omega) (by omega)
              refine ⟨sj, ?_, hsj2⟩
              rw [show x + dx + j * dx = x + (j + 1) * dx by ring,
                show y + dy + j * dy = y + (j + 1) * dy by ring]
              exact hsj
      | some tp =>
        by_cases hcol : tp.color = opp
        · constructor
          · intro h
            simp only [slide, hts, hbd, if_pos hcol] at h
            have hs : s = ts := by simpa using h
            subst hs
            exact ⟨1, le_rfl, by omega, by rw [one_mul, one_mul]; exact hts,
              fun j hj1 hj2 => absurd hj2 (by omega), Or.inr ⟨tp, hbd, hcol⟩⟩
          · rintro ⟨k, hk1, hk2, hend, hint, hok⟩
            simp only [slide, hts, hbd, if_pos hcol]
            rcases eq_or_lt_of_le hk1 with hk | hk
            · rw [← hk, one_mul, one_mul, hts] at hend
              have hs : ts = s := Option.some.inj hend
              simp [hs]
            · exfalso
              obtain ⟨s1, hs1, hs1e⟩ := hint 1 le_rfl hk
              rw [one_mul, one_mul, hts] at hs1
              have h1 : ts = s1 := Option.some.inj hs1
              rw [← h1, hbd] at hs1e
              exact absurd hs1e (by simp)
        · constructor
          · intro h
            simp only [slide, hts, hbd, if_neg hcol] at h
            simp at h
          · rintro ⟨k, hk1, hk2, hend, hint, hok⟩
            exfalso
            rcases eq_or_lt_of_le hk1 with hk | hk
            · rw [← hk, one_mul, one_mul, hts] at hend
              have hs : ts = s := Option.some.inj hend
              subst hs
              rcases hok with hok | ⟨tp', htp', hc'⟩
              · rw [hbd] at hok
                exact absurd hok (by simp)
              · rw [hbd] at htp'
                have h2 : tp = tp' := Option.some.inj htp'
                exact hcol (h2 ▸ hc')
            · obtain ⟨s1, hs1, hs1e⟩ := hint 1 le_rfl hk
              rw [one_mul, one_mul, hts] at hs1
              have h1 : ts = s1 := Option.some.inj hs1
              rw [← h1, hbd] at hs1e
              exact absurd hs1e (by simp)

/-! ### Direction table facts -/

theorem sliding_dirs_subset_q {l : Kind} (hl : l = Kind.b ∨ l = Kind.r ∨ l = Kind.q) :
    ∀ d ∈ dirVecs l, d ∈ dirVecs Kind.q := by
  rcases hl with rfl | rfl | rfl <;> decide

theorem q_dir_bounds :
    ∀ d ∈ dirVecs Kind.q, (-1 ≤ d.1 ∧ d.1 ≤ 1 ∧ -1 ≤ d.2 ∧ d.2 ≤ 1) ∧ ¬(d.1 = 0 ∧ d.2 = 0) := by
  decide

theorem dir_unique {d d' : Int × Int}
    (hd : d ∈ dirVecs Kind.q) (hd' : d' ∈ dirVecs Kind.q)
    {k k' : Int} (hk : 1 ≤ k) (hk' : 1 ≤ k')
    (h1 : k * d.1 = k' * d'.1) (h2 : k * d.2 = k' * d'.2) : d = d' ∧ k = k' := by
  simp only [dirVecs] at hd hd'
  fin_cases hd <;> fin_cases hd' <;> simp at h1 h2 <;>
    first
      | exact ⟨rfl, by omega⟩
      | (exfalso; omega)

/-! ### Characterization of single-step probes -/

theorem stepTarget_eq_some_iff {bd : Board} {opp : Color} {tx ty : Int} {s : Square} :
    stepTarget bd opp tx ty = some s ↔
      toSquare tx ty = some s ∧
        (bd s = none ∨ ∃ tp, bd s = some tp ∧ tp.color = opp) := by
  unfold stepTarget
  cases hts : toSquare tx ty with
  | none => simp
  | some ts =>
    cases hbd : bd ts with
    | none =>
      simp only [hbd, Option.some.injEq]
      constructor
      · rintro rfl
        exact ⟨rfl, Or.inl hbd⟩
      · rintro ⟨h, -⟩
        exact h
    | some tp =>
      by_cases hcol : tp.color = opp
      · simp only [hbd, if_pos hcol, Option.some.injEq]
        constructor
        · rintro rfl
          exact ⟨rfl, Or.inr ⟨tp, hbd, hcol⟩⟩
        · rintro ⟨h, -⟩
          exact h
      · simp only [hbd, if_neg hcol]
        constructor
        · intro h
          exact absurd h (by simp)
        · rintro ⟨h, hB | ⟨tp', htp', hc'⟩⟩
          · rw [← Option.some.inj h, hbd] at hB
            exact absurd hB (by simp)
          · rw [← Option.some.inj h, hbd] at htp'
            exact absurd ((Option.some.inj htp') ▸ hc') hcol

theorem diagTarget_eq_some_iff {bd : Board} {opp : Color} {tx ty : Int} {s : Square} :
    diagTarget bd opp tx ty = some s ↔
      toSquare tx ty = some s ∧ ∃ tp, bd s = some tp ∧ tp.color = opp := by
  unfold diagTarget
  cases hts : toSquare tx ty with
  | none => simp
  | some ts =>
    cases hbd : bd ts with
    | none =>
      simp only [hbd]
      constructor
      · intro h
        exact absurd h (by simp)
      · rintro ⟨h, tp, htp, -⟩
        rw [← Option.some.inj h, hbd] at htp
        exact absurd htp (by simp)
    | some tp =>
      by_cases hcol : tp.color = opp
      · simp only [hbd, if_pos hcol, Option.some.injEq]
        constructor
        · rintro rfl
          exact ⟨rfl, tp, hbd, hcol⟩
        · rintro ⟨h, -⟩
          exact h
      · simp only [hbd, if_neg hcol]
        constructor
        · intro h
          exact absurd h (by simp)
        · rintro ⟨h, tp', htp', hc'⟩
          rw [← Option.some.inj h, hbd] at htp'
          exact absurd ((Option.some.inj htp') ▸ hc') hcol

/-! ### Characterization of pawn-logic generation -/

theorem mem_pawnMoves_iff {bd : Board} {opp : Color} {um : Square → Bool} {sq : Square}
    {cx cy : Int} {color : Color} {s : Square} :
    s ∈ pawnMoves bd opp um sq cx cy color ↔
      ((toSquare cx (cy + pawnDir color) = some s ∧ bd s = none) ∨
        (∃ f1, toSquare cx (cy + pawnDir color) = some f1 ∧ bd f1 = none ∧
          toSquare cx (cy + pawnDir color * 2) = some s ∧ um sq = true ∧ bd s = none) ∨
        (∃ d, (d = ((1 : Int), pawnDir color) ∨ d = (-1, pawnDir color)) ∧
          toSquare (cx + d.1) (cy + d.2) = some s ∧
          ∃ tp, bd s = some tp ∧ tp.color = opp)) := by
  unfold pawnMoves
  rw [List.mem_append]
  constructor
  · rintro (h | h)
    · cases hf1 : toSquare cx (cy + pawnDir color) with
      | none =>
        simp only [hf1] at h
        simp at h
      | some f1 =>
        simp only [hf1] at h
        by_cases hbe : bd f1 = none
        · rw [if_pos hbe] at h
          rcases List.mem_cons.mp h with rfl | h
          · exact Or.inl ⟨rfl, hbe⟩
          · cases hf2 : toSquare cx (cy + pawnDir color * 2) with
            | none =>
              simp only [hf2] at h
              simp at h
            | some f2 =>
              simp only [hf2] at h
              by_cases hg : um sq ∧ bd f2 = none
              · rw [if_pos hg] at h
                have hs : s = f2 := by simpa using h
                subst hs
                exact Or.inr (Or.inl ⟨f1, rfl, hbe, rfl, hg.1, hg.2⟩)
              · rw [if_neg hg] at h
                simp at h
        · rw [if_neg hbe] at h
          simp at h
    · obtain ⟨d, hd, hds⟩ := List.mem_filterMap.mp h
      obtain ⟨hts, htp⟩ := diagTarget_eq_some_iff.mp hds
      refine Or.inr (Or.inr ⟨d, ?_, hts, htp⟩)
      simpa using hd
  · rintro (⟨hf1, hbe⟩ | ⟨f1, hf1, hbe, hf2, hum, hbe2⟩ | ⟨d, hd, hts, htp⟩)
    · left
      simp only [hf1]
      rw [if_pos hbe]
      exact List.mem_cons_self _ _
    · left
      simp only [hf1]
      rw [if_pos hbe]
      simp only [hf2]
      rw [if_pos ⟨hum, hbe2⟩]
      exact List.mem_cons_of_mem _ (List.mem_singleton.mpr rfl)
    · right
      refine List.mem_filterMap.mpr ⟨d, by simpa using hd, ?_⟩
      exact diagTarget_eq_some_iff.mpr ⟨hts, htp⟩

/-! ### Soundness of generation -/

theorem mem_movesForKind_target {bd : Board} {opp : Color} {um : Square → Bool}
    {sq : Square} {cx cy : Int} {color : Color} {l : Kind} {s : Square}
    (h : s ∈ movesForKind bd opp um sq cx cy color l) :
    (∃ a b, toSquare a b = some s) ∧
      (bd s = none ∨ ∃ tp, bd s = some tp ∧ tp.color = opp) := by
  cases l with
  | b =>
    obtain ⟨d, hd, hs⟩ := List.mem_flatMap.mp h
    obtain ⟨k, -, -, hend, -, hok⟩ := (mem_slide_iff 8 cx cy s).mp hs
    exact ⟨⟨_, _, hend⟩, hok⟩
  | r =>
    obtain ⟨d, hd, hs⟩ := List.mem_flatMap.mp h
    obtain ⟨k, -, -, hend, -, hok⟩ := (mem_slide_iff 8 cx cy s).mp hs
    exact ⟨⟨_, _, hend⟩, hok⟩
  | q =>
    obtain ⟨d, hd, hs⟩ := List.mem_flatMap.mp h
    obtain ⟨k, -, -, hend, -, hok⟩ := (mem_slide_iff 8 cx cy s).mp hs
    exact ⟨⟨_, _, hend⟩, hok⟩
  | n =>
    obtain ⟨d, hd, hs⟩ := List.mem_filterMap.mp h
    obtain ⟨hts, hok⟩ := stepTarget_eq_some_iff.mp hs
    exact ⟨⟨_, _, hts⟩, hok⟩
  | k =>
    obtain ⟨d, hd, hs⟩ := List.mem_filterMap.mp h
    obtain ⟨hts, hok⟩ := stepTarget_eq_some_iff.mp hs
    exact ⟨⟨_, _, hts⟩, hok⟩
  | p =>
    rcases mem_pawnMoves_iff.mp h with ⟨hf1, hbe⟩ | ⟨f1, hf1, hbe, hf2, hum, hbe2⟩
      | ⟨d, hd, hts, htp⟩
    · exact ⟨⟨_, _, hf1⟩, Or.inl hbe⟩
    · exact ⟨⟨_, _, hf2⟩, Or.inl hbe2⟩
    · exact ⟨⟨_, _, hts⟩, Or.inr htp⟩

theorem mem_generateMoves_elim {st : GameState} {f t : Square}
    (h : t ∈ generateMoves st f) :
    st.winner = none ∧ ∃ mp, st.board f = some mp ∧ mp.color = st.turnOf := by
  by_cases hw : st.winner.isSome
  · rw [generateMoves, if_pos hw] at h
    simp at h
  · rw [generateMoves, if_neg hw] at h
    refine ⟨Option.not_isSome_iff_eq_none.mp hw, ?_⟩
    unfold calculateValidMoves at h
    cases hp : st.board f with
    | none =>
      simp only [hp] at h
      simp at h
    | some piece =>
      simp only [hp] at h
      by_cases hc : piece.color ≠ st.turnOf
      · rw [if_pos hc] at h
        simp at h
      · exact ⟨piece, rfl, not_not.mp hc⟩

theorem mem_generateMoves_target {st : GameState} {f s : Square}
    (h : s ∈ generateMoves st f) :
    (∃ a b, toSquare a b = some s) ∧
      (st.board s = none ∨ ∃ tp, st.board s = some tp ∧ tp.color = opponent st.turnOf) := by
  by_cases hw : st.winner.isSome
  · rw [generateMoves, if_pos hw] at h
    simp at h
  · rw [generateMoves, if_neg hw] at h
    unfold calculateValidMoves at h
    cases hp : st.board f with
    | none =>
      simp only [hp] at h
      simp at h
    | some piece =>
      simp only [hp] at h
      by_cases hc : piece.color ≠ st.turnOf
      · rw [if_pos hc] at h
        simp at h
      · rw [if_neg hc] at h
        exact mem_movesForKind_target h

/-- C10: every square in the set returned by `generateMoves` is an
on-board square that is either empty or occupied by an opponent piece; a
square occupied by a piece of the moving player's own color is never
returned, under any effective movement kind including pawn logic. -/
theorem generated_moves_on_board_not_friendly {st : GameState} {f s : Square}
    (h : s ∈ generateMoves st f) :
    (s.1 ∈ COLS ∧ s.2 ∈ ROWS) ∧
      (st.board s = none ∨ ∃ tp, st.board s = some tp ∧ tp.color = opponent st.turnOf) := by
  obtain ⟨⟨a, b, hab⟩, hok⟩ := mem_generateMoves_target h
  exact ⟨toSquare_mem_of_some hab, hok⟩

/-- C5: if the origin square holds no piece, or the piece's color differs
from the player to move, or the winner is already set, `generateMoves`
returns the empty set (the embedding is total, so no error is possible). -/
theorem generateMoves_empty_of_invalid {st : GameState} {sq : Square}
    (h : st.board sq = none ∨ (∃ p, st.board sq = some p ∧ p.color ≠ st.turnOf) ∨
      st.winner ≠ none) :
    generateMoves st sq = [] := by
  rcases h with h | ⟨p, hp, hc⟩ | h
  · by_cases hw : st.winner.isSome
    · rw [generateMoves, if_pos hw]
    · rw [generateMoves, if_neg hw]
      unfold calculateValidMoves
      simp only [h]
  · by_cases hw : st.winner.isSome
    · rw [generateMoves, if_pos hw]
    · rw [generateMoves, if_neg hw]
      unfold calculateValidMoves
      simp only [hp]
      rw [if_pos hc]
  · rw [generateMoves, if_pos (Option.ne_none_iff_isSome.mp h)]

/-- C7: once the winner is set the state is terminal: the click-driven
move path rejects every move attempt, leaving the state (board, turn,
histories, unmoved set) unchanged, and move generation offers nothing. -/
theorem terminal_state_inert {st : GameState} {f t sq : Square}
    (h : st.winner ≠ none) :
    attemptMove st f t = st ∧ generateMoves st sq = [] := by
  have hw : st.winner.isSome = true := Option.ne_none_iff_isSome.mp h
  exact ⟨by rw [attemptMove, if_pos hw], by rw [generateMoves, if_pos hw]⟩

/-! ### The effective movement kind -/

theorem effectiveLogic_eq_spec {st : GameState} {p : Piece}
    (hc : p.color = st.turnOf) : effectiveLogic st p = specEffectiveKind st p := by
  unfold effectiveLogic specEffectiveKind
  rw [hc]
  cases hL : (historyOf st st.turnOf).getLast? with
  | none =>
    have h0 : historyOf st st.turnOf = [] := by
      cases hE : historyOf st st.turnOf with
      | nil => rfl
      | cons a l =>
        rw [hE] at hL
        simp [List.getLast?_eq_getLast _ (List.cons_ne_nil a l)] at hL
    rw [dif_pos h0]
  | some tk =>
    have hne : historyOf st st.turnOf ≠ [] := by
      intro h0
      rw [h0] at hL
      simp at hL
    rw [dif_neg hne]
    rw [List.getLast?_eq_getLast _ hne] at hL
    exact (Option.some.inj hL).symm

/-- C1: for every origin holding a piece of the player to move, the moves
the engine generates are exactly the movement geometry of the effective
kind of the spec (the piece's own kind when the mover's color has an
empty history, the last entry of that history otherwise), while the
selected piece may be of any kind and friend/foe determination uses the
actual piece's color, never the effective kind. -/
theorem effective_kind_governs_generation {st : GameState} {f : Square} {p : Piece}
    (hp : st.board f = some p) (hc : p.color = st.turnOf) (hw : st.winner = none) :
    generateMoves st f =
      movesForKind st.board (opponent p.color) st.unmoved f
        (toCoords f).1 (toCoords f).2 p.color (specEffectiveKind st p) := by
  have hw' : ¬st.winner.isSome = true := by simp [hw]
  rw [generateMoves, if_neg hw']
  unfold calculateValidMoves
  simp only [hp]
  rw [if_neg (by simp [hc])]
  rw [hc]
  rw [effectiveLogic_eq_spec hc]

/-! ### Sliding generation over all directions -/

theorem mem_slidingMoves_iff {bd : Board} {opp : Color} {x y dx dy k : Int} {l : Kind}
    {s : Square}
    (hsl : l = Kind.b ∨ l = Kind.r ∨ l = Kind.q) (hd : (dx, dy) ∈ dirVecs l) (hk : 1 ≤ k)
    (hx : 0 ≤ x ∧ x < 8 ∧ 0 ≤ y ∧ y < 8)
    (hts : toSquare (x + k * dx) (y + k * dy) = some s) :
    s ∈ (dirVecs l).flatMap (fun d => slide bd opp x y d.1 d.2 8) ↔
      ((∀ j : Int, 1 ≤ j → j < k →
          ∀ sj, toSquare (x + j * dx) (y + j * dy) = some sj → bd sj = none) ∧
        (bd s = none ∨ ∃ tp, bd s = some tp ∧ tp.color = opp)) := by
  have hdq : (dx, dy) ∈ dirVecs Kind.q := sliding_dirs_subset_q hsl _ hd
  obtain ⟨⟨hdx1, hdx2, hdy1, hdy2⟩, hdnz⟩ := q_dir_bounds _ hdq
  constructor
  · intro h
    obtain ⟨d', hd', hs⟩ := List.mem_flatMap.mp h
    obtain ⟨dx', dy'⟩ := d'
    obtain ⟨k', hk1', hk2', hend', hint', hok⟩ := (mem_slide_iff 8 x y s).mp hs
    have hdq' : (dx', dy') ∈ dirVecs Kind.q := sliding_dirs_subset_q hsl _ hd'
    have hend2 : toSquare (x + k' * dx') (y + k' * dy') = some s := hend'
    have hinj := toSquare_inj hts hend2
    have h1 : k * dx = k' * dx' := by have h0 := hinj.1; linarith
    have h2 : k * dy = k' * dy' := by have h0 := hinj.2; linarith
    obtain ⟨hdd, hkk⟩ := dir_unique hdq hdq' hk hk1' h1 h2
    have h3 : dx = dx' := congrArg Prod.fst hdd
    have h4 : dy = dy' := congrArg Prod.snd hdd
    subst h3
    subst h4
    subst hkk
    refine ⟨?_, hok⟩
    intro j hj1 hj2 sj hsj
    obtain ⟨sj', hsj', hb⟩ := hint' j hj1 hj2
    have hsj2 : toSquare (x + j * dx) (y + j * dy) = some sj' := hsj'
    have he : sj' = sj := Option.some.inj (hsj2.symm.trans hsj)
    exact he ▸ hb
  · rintro ⟨hint, hok⟩
    refine List.mem_flatMap.mpr ⟨(dx, dy), hd, ?_⟩
    apply (mem_slide_iff 8 x y s).mpr
    obtain ⟨he1, he2, he3, he4⟩ := toSquare_bounds hts
    have hdx : dx = -1 ∨ dx = 0 ∨ dx = 1 := by omega
    have hdy : dy = -1 ∨ dy = 0 ∨ dy = 1 := by omega
    refine ⟨k, hk, ?_, hts, ?_, hok⟩
    · rcases hdx with rfl | rfl | rfl <;> rcases hdy with rfl | rfl | rfl <;>
        first
          | (exfalso; exact hdnz ⟨rfl, rfl⟩)
          | omega
    · intro j hj1 hj2
      have hj0 : 0 ≤ x + j * dx ∧ x + j * dx < 8 ∧ 0 ≤ y + j * dy ∧ y + j * dy < 8 := by
        rcases hdx with rfl | rfl | rfl <;> rcases hdy with rfl | rfl | rfl <;> omega
      obtain ⟨sj, hsj⟩ := toSquare_isSome_of_bounds hj0.1 hj0.2.1 hj0.2.2.1 hj0.2.2.2
      exact ⟨sj, hsj, hint j hj1 hj2 sj hsj⟩

/-- C8: for every state, origin and sliding effective kind (bishop, rook,
queen), and for every direction vector of that kind, a target `k` steps
along the direction is generated exactly when every square strictly
before it on the ray is empty and the target itself is empty or
opponent-occupied: the set contains the empty squares strictly before the
first occupied square, never a square beyond it, and the first occupied
square itself exactly when it holds an opponent piece. -/
theorem sliding_moves_characterization {st : GameState} {f : Square} {p : Piece}
    {x y dx dy k : Int} {l : Kind} {s : Square}
    (hw : st.winner = none) (hp : st.board f = some p) (hc : p.color = st.turnOf)
    (hsq : toSquare x y = some f)
    (hl : effectiveLogic st p = l) (hsl : l = Kind.b ∨ l = Kind.r ∨ l = Kind.q)
    (hd : (dx, dy) ∈ dirVecs l) (hk : 1 ≤ k)
    (hts : toSquare (x + k * dx) (y + k * dy) = some s) :
    s ∈ generateMoves st f ↔
      ((∀ j : Int, 1 ≤ j → j < k →
          ∀ sj, toSquare (x + j * dx) (y + j * dy) = some sj → st.board sj = none) ∧
        (st.board s = none ∨ ∃ tp, st.board s = some tp ∧ tp.color = opponent st.turnOf)) := by
  have hcoords : toCoords f = (x, y) := toCoords_toSquare hsq
  have hw' : ¬st.winner.isSome = true := by simp [hw]
  have hx := toSquare_bounds hsq
  rw [generateMoves, if_neg hw']
  unfold calculateValidMoves
  simp only [hp, hcoords]
  rw [if_neg (by simp [hc]), hl]
  rcases hsl with rfl | rfl | rfl
  · simp only [movesForKind]
    exact mem_slidingMoves_iff (Or.inl rfl) hd hk hx hts
  · simp only [movesForKind]
    exact mem_slidingMoves_iff (Or.inr (Or.inl rfl)) hd hk hx hts
  · simp only [movesForKind]
    exact mem_slidingMoves_iff (Or.inr (Or.inr rfl)) hd hk hx hts

/-! ### The state transition in explicit form -/

theorem opponent_ne : ∀ c : Color, opponent c ≠ c := by
  intro c
  cases c <;> simp [opponent]

theorem applyMove_eq {st : GameState} {f t : Square} {mp : Piece}
    (hmp : st.board f = some mp) (hc : mp.color = st.turnOf) :
    applyMove st f t =
      { board := fun s =>
          if s = t then
            some ⟨if mp.kind = Kind.p ∧ (t.2 = '1' ∨ t.2 = '8') then Kind.q else mp.kind,
              mp.color⟩
          else if s = f then none else st.board s
        turnOf := opponent mp.color
        historyW :=
          if st.turnOf = Color.w then
            st.historyW ++ [if mp.kind = Kind.p ∧ (t.2 = '8' ∨ t.2 = '1') then Kind.p else mp.kind]
          else st.historyW
        historyB :=
          if st.turnOf = Color.b then
            st.historyB ++ [if mp.kind = Kind.p ∧ (t.2 = '8' ∨ t.2 = '1') then Kind.p else mp.kind]
          else st.historyB
        unmoved := fun s => if s = f then false else st.unmoved s
        winner :=
          match st.board t with
          | some target => if target.kind = Kind.k then some st.turnOf else none
          | none => none } := by
  unfold applyMove
  simp only [hmp]
  rw [if_neg (by simp [hc])]

/-- C2: if the destination of a generated move holds a king before the
move, `applyMove` sets the winner to the moving player's color, the move
still completes normally (relocation, history append, unmoved update),
and afterwards the destination holds the capturing player's piece, not
the king. -/
theorem king_capture_sets_winner {st : GameState} {f t : Square} {tp : Piece}
    (hm : t ∈ generateMoves st f) (ht : st.board t = some tp) (hk : tp.kind = Kind.k) :
    (applyMove st f t).winner = some st.turnOf ∧
      (∃ k', (applyMove st f t).board t = some ⟨k', st.turnOf⟩) ∧
      (applyMove st f t).board t ≠ some tp ∧
      (∀ s, s ≠ t → (applyMove st f t).board s = if s = f then none else st.board s) ∧
      (∃ rk, historyOf (applyMove st f t) st.turnOf = historyOf st st.turnOf ++ [rk]) ∧
      (applyMove st f t).unmoved f = false ∧
      (∀ s, s ≠ f → (applyMove st f t).unmoved s = st.unmoved s) := by
  obtain ⟨hw, mp, hmp, hcolor⟩ := mem_generateMoves_elim hm
  obtain ⟨-, hok⟩ := mem_generateMoves_target hm
  have htopp : tp.color = opponent st.turnOf := by
    rcases hok with h | ⟨tp', htp', hc'⟩
    · rw [ht] at h
      exact absurd h (by simp)
    · rw [ht] at htp'
      exact (Option.some.inj htp').symm ▸ hc'
  rw [applyMove_eq hmp hcolor]
  refine ⟨?_, ?_, ?_, ?_, ?_, ?_, ?_⟩
  · show (match st.board t with
      | some target => if target.kind = Kind.k then some st.turnOf else none
      | none => none) = some st.turnOf
    simp only [ht]
    rw [if_pos hk]
  · refine ⟨if mp.kind = Kind.p ∧ (t.2 = '1' ∨ t.2 = '8') then Kind.q else mp.kind, ?_⟩
    simp [hcolor]
  · intro heq
    have h3 : (⟨if mp.kind = Kind.p ∧ (t.2 = '1' ∨ t.2 = '8') then Kind.q else mp.kind,
        mp.color⟩ : Piece) = tp := by
      simpa using heq
    have h2 : mp.color = tp.color := by rw [← h3]
    rw [hcolor, htopp] at h2
    exact opponent_ne st.turnOf h2.symm
  · intro s hs
    show (if s = t then _ else if s = f then none else st.board s) = _
    rw [if_neg hs]
  · refine ⟨if mp.kind = Kind.p ∧ (t.2 = '8' ∨ t.2 = '1') then Kind.p else mp.kind, ?_⟩
    cases hct : st.turnOf with
    | w => simp [historyOf]
    | b => simp [historyOf]
  · simp
  · intro s hs
    show (if s = f then false else st.unmoved s) = st.unmoved s
    rw [if_neg hs]

/-! ### The pawn dash -/

theorem pawnDir_cases (c : Color) : pawnDir c = 1 ∨ pawnDir c = -1 := by
  cases c <;> simp [pawnDir]

/-- C4: under pawn movement logic, the two-square forward dash is in the
generated move set exactly when the forward-one square is empty, the
forward-two square is on the board and empty, and the origin square is in
the unmoved set — irrespective of the selected piece's kind (the piece of
the mover need not be a pawn) and irrespective of its rank. -/
theorem pawn_dash_iff {st : GameState} {f : Square} {p : Piece} {x y : Int} {s2 : Square}
    (hw : st.winner = none) (hp : st.board f = some p) (hc : p.color = st.turnOf)
    (hsq : toSquare x y = some f)
    (hl : effectiveLogic st p = Kind.p)
    (hs2 : toSquare x (y + pawnDir st.turnOf * 2) = some s2) :
    s2 ∈ generateMoves st f ↔
      ((∀ s1, toSquare x (y + pawnDir st.turnOf) = some s1 → st.board s1 = none) ∧
        st.board s2 = none ∧ st.unmoved f = true) := by
  have hcoords : toCoords f = (x, y) := toCoords_toSquare hsq
  have hw' : ¬st.winner.isSome = true := by simp [hw]
  have hdir := pawnDir_cases st.turnOf
  obtain ⟨hx0, hx8, hy0, hy8⟩ := toSquare_bounds hsq
  obtain ⟨h20, h28, h2a, h2b⟩ := toSquare_bounds hs2
  have hf1 : ∃ s1, toSquare x (y + pawnDir st.turnOf) = some s1 := by
    apply toSquare_isSome_of_bounds hx0 hx8 <;> rcases hdir with h | h <;> omega
  obtain ⟨s1, hs1⟩ := hf1
  rw [generateMoves, if_neg hw']
  unfold calculateValidMoves
  simp only [hp, hcoords]
  rw [if_neg (by simp [hc]), hl]
  simp only [movesForKind]
  rw [mem_pawnMoves_iff]
  constructor
  · rintro (⟨hf1', hbe⟩ | ⟨f1, hf1', hbe, hf2, hum, hbe2⟩ | ⟨d, hd, hts, htp⟩)
    · exfalso
      have := (toSquare_inj hf1' hs2).2
      rcases hdir with h | h <;> omega
    · have he1 : f1 = s1 := Option.some.inj (hf1'.symm.trans hs1)
      refine ⟨?_, hbe2, hum⟩
      intro s1' hs1'
      have he2 : s1 = s1' := Option.some.inj (hs1.symm.trans hs1')
      rw [← he2, ← he1]
      exact hbe
    · exfalso
      have h1 := (toSquare_inj hts hs2).1
      rcases hd with rfl | rfl <;> simp at h1
  · rintro ⟨hall, hbe2, hum⟩
    exact Or.inr (Or.inl ⟨s1, hs1, hall s1 hs1, hs2, hum, hbe2⟩)

/-! ### Promotion and the recorded history kind -/

/-- C3 (amended): the kind appended to the moving player's history by
`applyMove` is always the mover's original kind — on a promotion the
recorded kind is pawn (the source resets the mimic logic to pawn), never
queen — so the player's mimic logic on their own next turn derives from
pawn after a promotion. -/
theorem history_append_original_kind {st : GameState} {f t : Square} {mp : Piece}
    (hmp : st.board f = some mp) (hc : mp.color = st.turnOf) :
    historyOf (applyMove st f t) st.turnOf = historyOf st st.turnOf ++ [mp.kind] ∧
      (historyOf (applyMove st f t) st.turnOf).getLast? = some mp.kind := by
  have hrec :
      (if mp.kind = Kind.p ∧ (t.2 = '8' ∨ t.2 = '1') then Kind.p else mp.kind) = mp.kind := by
    by_cases h : mp.kind = Kind.p ∧ (t.2 = '8' ∨ t.2 = '1')
    · rw [if_pos h, h.1]
    · rw [if_neg h]
  have h1 : historyOf (applyMove st f t) st.turnOf = historyOf st st.turnOf ++ [mp.kind] := by
    rw [applyMove_eq hmp hc]
    cases hct : st.turnOf with
    | w => simp [historyOf, hrec]
    | b => simp [historyOf, hrec]
  refine ⟨h1, ?_⟩
  rw [h1]
  exact List.getLast?_concat _

def c3Board : Board := fun s => if s = ('e', '7') then some ⟨Kind.p, Color.w⟩ else none

def c3State : GameState :=
  { board := c3Board, turnOf := Color.w, historyW := [], historyB := [],
    unmoved := fun _ => false, winner := none }

/-- C3 counterexample: the white pawn move e7→e8 is generated and is a
promotion (a queen is placed at e8), yet the kind appended to White's
history is pawn, not queen. -/
theorem promotion_records_queen_refuted :
    (('e', '8') ∈ generateMoves c3State ('e', '7')) ∧
      (applyMove c3State ('e', '7') ('e', '8')).board ('e', '8') = some ⟨Kind.q, Color.w⟩ ∧
      historyOf (applyMove c3State ('e', '7') ('e', '8')) Color.w = [Kind.p] ∧
      Kind.p ≠ Kind.q := by
  decide

theorem history_append_original_kind_witness :
    historyOf (applyMove c3State ('e', '7') ('e', '8')) Color.w = [] ++ [Kind.p] ∧
      (historyOf (applyMove c3State ('e', '7') ('e', '8')) Color.w).getLast? = some Kind.p :=
  @history_append_original_kind c3State ('e', '7') ('e', '8') ⟨Kind.p, Color.w⟩
    (by decide) (by decide)

/-- C6 (amended): for every applied move whose mover is a pawn, a queen of
the mover's color is placed at the destination exactly when the
destination rank character is `'1'` or `'8'` — either back rank,
irrespective of the mover's color — and otherwise the pawn itself is
placed at the destination unchanged. -/
theorem pawn_promotion_either_back_rank {st : GameState} {f t : Square} {mp : Piece}
    (hmp : st.board f = some mp) (hc : mp.color = st.turnOf) (hk : mp.kind = Kind.p) :
    ((applyMove st f t).board t = some ⟨Kind.q, mp.color⟩ ↔ (t.2 = '1' ∨ t.2 = '8')) ∧
      (¬(t.2 = '1' ∨ t.2 = '8') → (applyMove st f t).board t = some mp) := by
  rw [applyMove_eq hmp hc]
  constructor
  · constructor
    · intro h
      by_cases hr : t.2 = '1' ∨ t.2 = '8'
      · exact hr
      · exfalso
        simp [hk, hr] at h
    · intro hr
      simp [hk, hr]
  · intro hr
    have h0 : (if mp.kind = Kind.p ∧ (t.2 = '1' ∨ t.2 = '8') then Kind.q else mp.kind) =
        mp.kind := by
      rw [if_neg (by tauto)]
    simp [h0]

def c6Board : Board := fun s => if s = ('e', '2') then some ⟨Kind.p, Color.w⟩ else none

def c6State : GameState :=
  { board := c6Board, turnOf := Color.w, historyW := [Kind.r], historyB := [],
    unmoved := fun _ => false, winner := none }

/-- C6 counterexample: with White mimicking a rook, the white pawn at e2
may move to the empty square e1; rank 1 is not the back rank relative to
a white mover, yet `applyMove` places a queen at e1 instead of the
unchanged pawn. -/
theorem promotion_color_relative_refuted :
    (('e', '1') ∈ generateMoves c6State ('e', '2')) ∧
      c6State.board ('e', '2') = some ⟨Kind.p, Color.w⟩ ∧
      (applyMove c6State ('e', '2') ('e', '1')).board ('e', '1') = some ⟨Kind.q, Color.w⟩ ∧
      (⟨Kind.q, Color.w⟩ : Piece) ≠ ⟨Kind.p, Color.w⟩ := by
  decide

theorem pawn_promotion_either_back_rank_witness :
    ((applyMove c6State ('e', '2') ('e', '1')).board ('e', '1') = some ⟨Kind.q, Color.w⟩ ↔
        ((('e', '1') : Square).2 = '1' ∨ (('e', '1') : Square).2 = '8')) ∧
      (¬((('e', '1') : Square).2 = '1' ∨ (('e', '1') : Square).2 = '8') →
        (applyMove c6State ('e', '2') ('e', '1')).board ('e', '1') =
          some ⟨Kind.p, Color.w⟩) :=
  @pawn_promotion_either_back_rank c6State ('e', '2') ('e', '1') ⟨Kind.p, Color.w⟩
    (by decide) (by decide) (by decide)

/-! ### Coordinate round-trip -/

/-- C9: square/coordinate conversion round-trips losslessly: an in-range
coordinate pair converts to a square and back to the same pair, a
canonical square string converts to coordinates and back to the same
string, and any pair with a component outside `[0, 7]` converts to `null`
(off board). -/
theorem square_coord_roundtrip :
    (∀ x y : Int, 0 ≤ x → x ≤ 7 → 0 ≤ y → y ≤ 7 →
        (toSquare x y).map toCoords = some (x, y)) ∧
      (∀ s : Square, s.1 ∈ COLS → s.2 ∈ ROWS →
        toSquare (toCoords s).1 (toCoords s).2 = some s) ∧
      (∀ x y : Int, ¬(0 ≤ x ∧ x ≤ 7 ∧ 0 ≤ y ∧ y ≤ 7) → toSquare x y = none) := by
  refine ⟨?_, ?_, ?_⟩
  · intro x y hx0 hx7 hy0 hy7
    obtain ⟨s, hs⟩ := toSquare_isSome_of_bounds hx0 (by omega) hy0 (by omega)
    rw [hs]
    simp [toCoords_toSquare hs]
  · intro s h1 h2
    obtain ⟨c, r⟩ := s
    simp only [COLS, ROWS] at h1 h2
    fin_cases h1 <;> fin_cases h2 <;> decide
  · intro x y h
    unfold toSquare
    rw [if_neg (by omega)]

theorem square_coord_roundtrip_witness :
    (toSquare 3 4).map toCoords = some ((3 : Int), (4 : Int)) ∧
      toSquare (toCoords (('d', '5') : Square)).1 (toCoords (('d', '5') : Square)).2 =
        some ('d', '5') ∧
      toSquare 9 0 = none :=
  ⟨square_coord_roundtrip.1 3 4 (by decide) (by decide) (by decide) (by decide),
    square_coord_roundtrip.2.1 ('d', '5') (by decide) (by decide),
    square_coord_roundtrip.2.2 9 0 (by decide)⟩

/-! ### Concrete witnesses -/

def c1Board : Board := fun s => if s = ('b', '1') then some ⟨Kind.n, Color.w⟩ else none

def c1State : GameState :=
  { board := c1Board, turnOf := Color.w, historyW := [], historyB := [],
    unmoved := fun _ => false, winner := none }

theorem effective_kind_governs_generation_witness :
    generateMoves c1State ('b', '1') =
      movesForKind c1State.board (opponent Color.w) c1State.unmoved ('b', '1')
        (toCoords ('b', '1')).1 (toCoords ('b', '1')).2 Color.w
        (specEffectiveKind c1State ⟨Kind.n, Color.w⟩) :=
  effective_kind_governs_generation (p := ⟨Kind.n, Color.w⟩) (by decide) (by decide) (by decide)

def c2Board : Board := fun s =>
  if s = ('e', '1') then some ⟨Kind.q, Color.w⟩
  else if s = ('e', '8') then some ⟨Kind.k, Color.b⟩
  else none

def c2State : GameState :=
  { board := c2Board, turnOf := Color.w, historyW := [], historyB := [],
    unmoved := fun _ => false, winner := none }

theorem king_capture_sets_winner_witness :
    (('e', '8') ∈ generateMoves c2State ('e', '1')) ∧
      (applyMove c2State ('e', '1') ('e', '8')).winner = some Color.w := by
  have hm : ('e', '8') ∈ generateMoves c2State ('e', '1') := by decide
  have ht : c2State.board ('e', '8') = some ⟨Kind.k, Color.b⟩ := by decide
  exact ⟨hm, (king_capture_sets_winner hm ht (by decide)).1⟩

def c4Board : Board := fun s => if s = ('e', '2') then some ⟨Kind.n, Color.w⟩ else none

def c4State : GameState :=
  { board := c4Board, turnOf := Color.w, historyW := [Kind.p], historyB := [],
    unmoved := fun s => decide (s = ('e', '2')), winner := none }

theorem pawn_dash_iff_witness :
    ('e', '4') ∈ generateMoves c4State ('e', '2') := by
  have h := @pawn_dash_iff c4State ('e', '2') ⟨Kind.n, Color.w⟩ 4 1 ('e', '4')
    (by decide) (by decide) (by decide) (by decide) (by decide) (by decide)
  apply h.mpr
  refine ⟨?_, by decide, by decide⟩
  intro s1 hs1
  have h13 : toSquare 4 (1 + pawnDir c4State.turnOf) = some (('e', '3') : Square) := by decide
  have he : (('e', '3') : Square) = s1 := Option.some.inj (h13.symm.trans hs1)
  rw [← he]
  decide

def c5State : GameState :=
  { board := fun _ => none, turnOf := Color.w, historyW := [], historyB := [],
    unmoved := fun _ => false, winner := none }

theorem generateMoves_empty_of_invalid_witness :
    generateMoves c5State ('a', '1') = [] :=
  generateMoves_empty_of_invalid (Or.inl rfl)

def c7State : GameState :=
  { board := fun _ => none, turnOf := Color.w, historyW := [], historyB := [],
    unmoved := fun _ => false, winner := some Color.b }

theorem terminal_state_inert_witness :
    attemptMove c7State ('a', '1') ('a', '2') = c7State ∧
      generateMoves c7State ('a', '1') = [] :=
  terminal_state_inert (by decide)

def c8Board : Board := fun s => if s = ('a', '1') then some ⟨Kind.r, Color.w⟩ else none

def c8State : GameState :=
  { board := c8Board, turnOf := Color.w, historyW := [], historyB := [],
    unmoved := fun _ => false, winner := none }

theorem sliding_moves_characterization_witness :
    ('a', '2') ∈ generateMoves c8State ('a', '1') := by
  have h := @sliding_moves_characterization c8State ('a', '1') ⟨Kind.r, Color.w⟩
    0 0 0 1 1 Kind.r ('a', '2') (by decide) (by decide) (by decide) (by decide) (by decide)
    (Or.inr (Or.inl rfl)) (by decide) (by decide) (by decide)
  apply h.mpr
  refine ⟨?_, Or.inl (by decide)⟩
  intro j hj1 hj2 sj hsj
  exfalso
  omega

def c10Board : Board := fun s => if s = ('b', '1') then some ⟨Kind.n, Color.w⟩ else none

def c10State : GameState :=
  { board := c10Board, turnOf := Color.w, historyW := [], historyB := [],
    unmoved := fun _ => false, winner := none }

theorem generated_moves_on_board_not_friendly_witness :
    ((('a', '3') : Square).1 ∈ COLS ∧ (('a', '3') : Square).2 ∈ ROWS) ∧
      (c10State.board ('a', '3') = none ∨
        ∃ tp, c10State.board ('a', '3') = some tp ∧ tp.color = opponent c10State.turnOf) :=
  generated_moves_on_board_not_friendly (f := ('b', '1')) (by decide)

end MimicChess
